import Mathlib

/-!
Shallow embedding of the Time-Helper report aggregation engine
(src/time_helper/models.py, src/time_helper/report_generator.py and the
deduplication helper of src/time_helper/cli/report_commands.py), with
theorems settling the frozen claims about it.

Modelling conventions:
* Python `float` hour totals are modelled as exact rationals (`ℚ`); the
  spec states the totals invariant "to floating-point tolerance", which the
  exact model captures.
* UTC timestamps (`YYYYMMDDTHHMMSSZ` strings parsed by `parse_start` /
  `parse_end`) are modelled as epoch seconds (`Int`).  Both endpooints are
  converted to the same local timezone before subtraction, so the duration
  `(end_dt - start_dt).total_seconds() / 3600` depends only on the
  difference of the two instants, which the integer model preserves.
* Python `dict` (and `collections.defaultdict`) is modelled as an
  insertion-ordered association list: updating an existing key keeps its
  position, a new key is appended at the end — exactly the iteration order
  Python guarantees.
* `datetime.now()`, fetched by `get_duration_hours` for active timers, is
  modelled as an explicit `now : Int` parameter threaded into report
  generation; two program runs at different wall-clock instants are two
  different values of `now`.
* Python's `sorted(..., key=..., reverse=True)` (Timsort) is modelled by a
  stable insertion sort: its output is the unique permutation that is
  sorted by the key (descending) and keeps the original order of ties,
  which characterises Timsort's output as well.
-/

/-- Calendar date, mirroring `datetime.date` (`models.py` uses it for
`TimeEntry.date`, `DailyReport.date`, `WeeklyReport.week_start`/`end_date`). -/
structure Date where
  year : Nat
  month : Nat
  day : Nat
  deriving DecidableEq, Repr

/-- `datetime.date` comparison (lexicographic year, month, day). -/
def dateLe (a b : Date) : Prop :=
  a.year < b.year ∨ (a.year = b.year ∧
    (a.month < b.month ∨ (a.month = b.month ∧ a.day ≤ b.day)))

instance (a b : Date) : Decidable (dateLe a b) := by
  unfold dateLe; infer_instance

theorem dateLe_total (a b : Date) : dateLe a b ∨ dateLe b a := by
  unfold dateLe; omega

theorem dateLe_trans {a b c : Date} (h1 : dateLe a b) (h2 : dateLe b c) :
    dateLe a c := by
  unfold dateLe at h1 h2 ⊢; omega

/-- Gregorian leap year test (as used by `datetime.date`). -/
def isLeapYear (y : Nat) : Bool :=
  (y % 4 == 0 && y % 100 != 0) || y % 400 == 0

/-- Days in a month of the Gregorian calendar. -/
def daysInMonth (y m : Nat) : Nat :=
  if m = 2 then (if isLeapYear y then 29 else 28)
  else if m = 4 ∨ m = 6 ∨ m = 9 ∨ m = 11 then 30
  else 31

/-- The day after `d` (calendar-correct successor). -/
def nextDay (d : Date) : Date :=
  if d.day < daysInMonth d.year d.month then ⟨d.year, d.month, d.day + 1⟩
  else if d.month < 12 then ⟨d.year, d.month + 1, 1⟩
  else ⟨d.year + 1, 1, 1⟩

/-- `d + timedelta(days=n)` (used only by the `end_date`-absent fallback of
`WeeklyReport.get_week_range_string`). -/
def addDays : Nat → Date → Date
  | 0, d => d
  | n + 1, d => addDays n (nextDay d)

/-- Month offsets of Sakamoto's day-of-week formula. -/
def sakamotoT (m : Nat) : Nat :=
  [0, 3, 2, 5, 0, 3, 5, 1, 4, 6, 2, 4].getD (m - 1) 0

/-- Day of week, 0 = Sunday (Sakamoto's formula; the value
`date.strftime("%A")` is derived from). -/
def dayOfWeek (d : Date) : Nat :=
  let y := if d.month < 3 then d.year - 1 else d.year
  (y + y / 4 + y / 400 + sakamotoT d.month + d.day - y / 100) % 7

/-- `date.strftime("%A")` (C locale). -/
def dayName (d : Date) : String :=
  match dayOfWeek d with
  | 0 => "Sunday"
  | 1 => "Monday"
  | 2 => "Tuesday"
  | 3 => "Wednesday"
  | 4 => "Thursday"
  | 5 => "Friday"
  | _ => "Saturday"

/-- `date.strftime("%a")` (C locale), used by `_get_daily_breakdown`. -/
def dayAbbrev (d : Date) : String :=
  match dayOfWeek d with
  | 0 => "Sun"
  | 1 => "Mon"
  | 2 => "Tue"
  | 3 => "Wed"
  | 4 => "Thu"
  | 5 => "Fri"
  | _ => "Sat"

/-- `date.strftime("%B")` (C locale). -/
def monthName (m : Nat) : String :=
  match m with
  | 1 => "January"
  | 2 => "February"
  | 3 => "March"
  | 4 => "April"
  | 5 => "May"
  | 6 => "June"
  | 7 => "July"
  | 8 => "August"
  | 9 => "September"
  | 10 => "October"
  | 11 => "November"
  | _ => "December"

/-- Two-digit zero padding (`%d`, `%m`, and the fractional part of `%.2f`). -/
def pad2 (n : Nat) : String :=
  if n < 10 then "0" ++ toString n else toString n

/-- Four-digit zero padding (`%Y` in ISO dates). -/
def pad4 (n : Nat) : String :=
  if n < 10 then "000" ++ toString n
  else if n < 100 then "00" ++ toString n
  else if n < 1000 then "0" ++ toString n
  else toString n

/-- `DailyReport.get_formatted_date`: `self.date.strftime("%Y-%m-%d")`. -/
def getFormattedDate (d : Date) : String :=
  pad4 d.year ++ "-" ++ pad2 d.month ++ "-" ++ pad2 d.day

/-- `date.strftime("%B %d")`, the short form of `get_week_range_string`. -/
def fmtMonthDay (d : Date) : String :=
  monthName d.month ++ " " ++ pad2 d.day

/-- `date.strftime("%B %d, %Y")`.  (`%Y` does not pad years ≥ 1000; all
dates of interest have four-digit years.) -/
def fmtMonthDayYear (d : Date) : String :=
  fmtMonthDay d ++ ", " ++ toString d.year

/-- Round to the nearest integer, ties to even (the rounding of Python's
fixed-point float formatting, idealised to exact rationals). -/
def roundHalfEven (q : ℚ) : ℤ :=
  let f : ℤ := ⌊q⌋
  let r : ℚ := q - (f : ℚ)
  if r < 1 / 2 then f
  else if 1 / 2 < r then f + 1
  else if f % 2 = 0 then f else f + 1

/-- Python's `f"{hours:.2f}"` on an hour total (exact-rational model). -/
def formatHours (q : ℚ) : String :=
  let n : ℤ := roundHalfEven (q * 100)
  let s : String := toString (n.natAbs / 100) ++ "." ++ pad2 (n.natAbs % 100)
  if n < 0 then "-" ++ s else s

/-- One tracked interval: `models.TimeEntry`.  `endTime` models the `end`
field (`None` = active timer), `annot` the `annotation` field; timestamps
are epoch seconds (see the header comment). -/
structure TimeEntry where
  id : Int
  start : Int
  endTime : Option Int
  tags : List String
  annot : Option String
  date : Option Date
  deriving DecidableEq, Repr

/-- `TimeEntry.get_duration_hours`: `((end or now) - start).total_seconds()
/ 3600`; for an active timer the effective end is `now`. -/
def getDurationHours (now : Int) (e : TimeEntry) : ℚ :=
  ((e.endTime.getD now - e.start : ℤ) : ℚ) / 3600

/-- `TimeEntry.get_primary_tag`: the first tag, or `"untagged"`. -/
def getPrimaryTag (e : TimeEntry) : String :=
  e.tags.headD "untagged"

/-- `models.TagSummary` (`annots` models its `annotations` list). -/
structure TagSummary where
  tag : String
  total_hours : ℚ
  entries : List TimeEntry
  annots : List String
  deriving DecidableEq, Repr

/-- Python truthiness test `ann and ann.strip()` on a string. -/
def nonBlank (a : String) : Bool :=
  !(a == "") && !(a.trim == "")

/-- Keep the first occurrence of each key, mirroring both
`dict.fromkeys(...)` (with `key = id`) and the `seen_ids` loop of
`_remove_duplicate_entries` (with `key = TimeEntry.id`). -/
def dedupBy {α β : Type} [DecidableEq β] (key : α → β) :
    List β → List α → List α
  | _, [] => []
  | seen, a :: rest =>
      if key a ∈ seen then dedupBy key seen rest
      else a :: dedupBy key (key a :: seen) rest

/-- `TagSummary.get_formatted_annotations`: unique (first-seen) non-blank
annotations, or the synthetic placeholder when none exist. -/
def getFormattedAnnots (ts : TagSummary) : List String :=
  if ts.annots = [] then ["Work on " ++ ts.tag ++ " related tasks"]
  else
    let unique := dedupBy (fun s => s) [] (ts.annots.filter nonBlank)
    if unique = [] then ["Work on " ++ ts.tag ++ " related tasks"]
    else unique

/-- `models.DailyReport`; `tag_summaries` is the insertion-ordered dict. -/
structure DailyReport where
  date : Date
  tag_summaries : List (String × TagSummary)
  total_hours : ℚ
  deriving DecidableEq, Repr

/-- `models.WeeklyReport`. -/
structure WeeklyReport where
  week_start : Date
  daily_reports : List (Date × DailyReport)
  weekly_summaries : List (String × TagSummary)
  total_hours : ℚ
  end_date : Option Date
  tags : Option (List String)
  deriving DecidableEq, Repr

/-- First match in an insertion-ordered association list (`dict` lookup). -/
def lookupKey {κ γ : Type} [DecidableEq κ] : List (κ × γ) → κ → Option γ
  | [], _ => none
  | (k, v) :: rest, k' => if k' = k then some v else lookupKey rest k'

/-- `daily_data[entry_date][tag].append(entry)` at the tag level: append
`e` to the bucket of tag `t`, creating the bucket at the end of the
(insertion-ordered) dict when absent — `defaultdict(list)` semantics. -/
def addEntryTag (m : List (String × List TimeEntry)) (t : String)
    (e : TimeEntry) : List (String × List TimeEntry) :=
  match m with
  | [] => [(t, [e])]
  | (t', es) :: rest =>
      if t = t' then (t', es ++ [e]) :: rest
      else (t', es) :: addEntryTag rest t e

/-- `daily_data[entry_date][tag].append(entry)` at the date level
(`defaultdict(lambda: defaultdict(list))` semantics). -/
def addEntryDaily (m : List (Date × List (String × List TimeEntry)))
    (d : Date) (t : String) (e : TimeEntry) :
    List (Date × List (String × List TimeEntry)) :=
  match m with
  | [] => [(d, [(t, [e])])]
  | (d', g) :: rest =>
      if d = d' then (d', addEntryTag g t e) :: rest
      else (d', g) :: addEntryDaily rest d t e

/-- `entry.date or start_date` — the attribution-date fallback of
`generate_report` (a `date` object is always truthy, `None` is falsy). -/
def attrDate (start_date : Date) (e : TimeEntry) : Date :=
  e.date.getD start_date

/-- The `daily_data` grouping loop of `generate_report` (entries bucketed
by attribution date, then primary tag). -/
def dailyData (start_date : Date) (entries : List TimeEntry) :
    List (Date × List (String × List TimeEntry)) :=
  entries.foldl
    (fun m e => addEntryDaily m (attrDate start_date e) (getPrimaryTag e) e) []

/-- The `weekly_data` grouping loop of `generate_report` (entries bucketed
by primary tag across the whole range). -/
def weeklyData (entries : List TimeEntry) :
    List (String × List TimeEntry) :=
  entries.foldl (fun m e => addEntryTag m (getPrimaryTag e) e) []

/-- `[entry.annotation for entry in tag_entries if entry.annotation]` —
Python truthiness drops both `None` and the empty string. -/
def entryAnnots (es : List TimeEntry) : List String :=
  es.filterMap fun e =>
    match e.annot with
    | none => none
    | some a => if a = "" then none else some a

/-- Sum of member durations: `sum(entry.get_duration_hours() for entry in
tag_entries)` with every active timer evaluated against the same `now`. -/
def sumDur (now : Int) (es : List TimeEntry) : ℚ :=
  (es.map (getDurationHours now)).sum

/-- The `TagSummary(...)` construction of `generate_report`. -/
def mkTagSummary (now : Int) (t : String) (es : List TimeEntry) : TagSummary :=
  { tag := t
    total_hours := sumDur now es
    entries := es
    annots := entryAnnots es }

/-- The `DailyReport(...)` construction of `generate_report`: one summary
per tag bucket, `total_hours` accumulated over them in order. -/
def mkDailyReport (now : Int) (d : Date)
    (g : List (String × List TimeEntry)) : DailyReport :=
  { date := d
    tag_summaries := g.map fun p => (p.1, mkTagSummary now p.1 p.2)
    total_hours := (g.map fun p => sumDur now p.2).sum }

/-- `ReportGenerator.generate_report` (report_generator.py, lines 18-90).
`now` is the evaluation instant for active timers (see header). -/
def generateReport (entries : List TimeEntry) (start_date end_date : Date)
    (tags : Option (List String)) (now : Int) : WeeklyReport :=
  { week_start := start_date
    daily_reports :=
      (dailyData start_date entries).map fun p =>
        (p.1, mkDailyReport now p.1 p.2)
    weekly_summaries :=
      (weeklyData entries).map fun p => (p.1, mkTagSummary now p.1 p.2)
    total_hours := ((weeklyData entries).map fun p => sumDur now p.2).sum
    end_date := some end_date
    tags := tags }

/-- `_remove_duplicate_entries` (cli/report_commands.py): keep the first
entry seen for each id. -/
def removeDuplicateEntries (entries : List TimeEntry) : List TimeEntry :=
  dedupBy (fun e => e.id) [] entries

/-- One step of Python's stable descending sort by `total_hours`
(`sorted(..., key=lambda x: x.total_hours, reverse=True)`): insert before
the first element whose key is ≤ ours, so existing ties stay first. -/
def insertTS (x : TagSummary) : List TagSummary → List TagSummary
  | [] => [x]
  | y :: ys =>
      if y.total_hours ≤ x.total_hours then x :: y :: ys
      else y :: insertTS x ys

/-- `sorted(values, key=lambda x: x.total_hours, reverse=True)`. -/
def sortTSDesc (l : List TagSummary) : List TagSummary :=
  l.foldr insertTS []

/-- One step of `sorted(keys)` over dates (ascending, stable). -/
def insertDateAsc (d : Date) : List Date → List Date
  | [] => [d]
  | x :: xs => if dateLe d x then d :: x :: xs else x :: insertDateAsc d xs

/-- `sorted(self.daily_reports.keys())`. -/
def sortDatesAsc (l : List Date) : List Date :=
  l.foldr insertDateAsc []

/-- `WeeklyReport.get_sorted_daily_reports`: ascending-date key order, each
key looked up in the dict.  The `.getD` default is unreachable for keys
drawn from the map itself (Python would raise `KeyError` there). -/
def getSortedDailyReports (r : WeeklyReport) : List DailyReport :=
  (sortDatesAsc (r.daily_reports.map Prod.fst)).map fun d =>
    (lookupKey r.daily_reports d).getD ⟨d, [], 0⟩

/-- `WeeklyReport.get_sorted_weekly_summaries`. -/
def getSortedWeeklySummaries (r : WeeklyReport) : List TagSummary :=
  sortTSDesc (r.weekly_summaries.map Prod.snd)

/-- Python `max(keys)` over a nonempty list (first maximum under `<`);
the `d0` default is unreachable (guarded by `if self.daily_reports`). -/
def maxDateList (d0 : Date) : List Date → Date
  | [] => d0
  | x :: xs => xs.foldl (fun a b => if dateLe a b ∧ a ≠ b then b else a) x

/-- `WeeklyReport.get_week_range_string` (models.py, lines 123-148). -/
def getWeekRangeString (r : WeeklyReport) : String :=
  match r.end_date with
  | some ed =>
      if r.week_start.year = ed.year then
        fmtMonthDay r.week_start ++ " - " ++ fmtMonthDayYear ed
      else
        fmtMonthDayYear r.week_start ++ " - " ++ fmtMonthDayYear ed
  | none =>
      let week_end :=
        if r.daily_reports ≠ [] then
          maxDateList r.week_start (r.daily_reports.map Prod.fst)
        else addDays 6 r.week_start
      if r.week_start.year = week_end.year then
        fmtMonthDay r.week_start ++ " - " ++ fmtMonthDayYear week_end
      else
        fmtMonthDayYear r.week_start ++ " - " ++ fmtMonthDayYear week_end

/-- `_get_daily_breakdown`: comma-joined "Abbrev: H.HH" over the ascending
dates on which the tag appears, or "No hours". -/
def dailyBreakdown (tag : String) (m : List (Date × DailyReport)) : String :=
  let parts :=
    (sortDatesAsc (m.map Prod.fst)).filterMap fun d =>
      match lookupKey m d with
      | none => none
      | some dr =>
          match lookupKey dr.tag_summaries tag with
          | none => none
          | some ts => some (dayAbbrev d ++ ": " ++ formatHours ts.total_hours)
  if parts = [] then "No hours" else String.intercalate ", " parts

/-- The per-day block of `format_as_markdown` (lines appended for one
`DailyReport`). -/
def mdDayLines (dr : DailyReport) : List String :=
  ["### " ++ dayName dr.date ++ " (" ++ getFormattedDate dr.date ++ ")", ""]
  ++ (if dr.tag_summaries = [] then ["*No time tracked*", ""]
      else
        ["| Tag | Hours | Annotations |", "| :--- | :--- | :--- |"]
        ++ ((sortTSDesc (dr.tag_summaries.map Prod.snd)).map fun ts =>
              "| " ++ ts.tag ++ " | " ++ formatHours ts.total_hours ++ " | "
              ++ String.intercalate ", " (getFormattedAnnots ts) ++ " |")
        ++ ["", "**Daily Total: " ++ formatHours dr.total_hours ++ " hours**",
            ""])

/-- The `lines` list built by `ReportGenerator.format_as_markdown`
(report_generator.py, lines 220-285). -/
def mdLines (r : WeeklyReport) : List String :=
  ["# Time Report - " ++ getWeekRangeString r, ""]
  ++ (match r.tags with
      | some ts =>
          if ts ≠ [] then
            ["> Filtered by tags: " ++ String.intercalate ", " ts, ""]
          else []
      | none => [])
  ++ ["## Daily Reports", ""]
  ++ (getSortedDailyReports r).flatMap mdDayLines
  ++ ["## Weekly Summary", ""]
  ++ (if r.weekly_summaries = [] then ["*No time tracked this week*"]
      else
        ["| Tag | Total Hours | Daily Breakdown |", "| :--- | :--- | :--- |"]
        ++ ((getSortedWeeklySummaries r).map fun ts =>
              "| " ++ ts.tag ++ " | " ++ formatHours ts.total_hours ++ " | "
              ++ dailyBreakdown ts.tag r.daily_reports ++ " |")
        ++ ["", "**Total Hours: " ++ formatHours r.total_hours ++ " hours**"])

/-- `ReportGenerator.format_as_markdown`: `"\n".join(lines)`. -/
def formatAsMarkdown (r : WeeklyReport) : String :=
  String.intercalate "\n" (mdLines r)

/-- Double every double-quote character (`str.replace('"', '""')`, the
escaping `csv.writer` applies inside quoted fields). -/
def escapeQuotes (s : String) : String :=
  ⟨s.data.flatMap fun ch => if ch = '"' then ['"', '"'] else [ch]⟩

/-- A CSV field under `csv.writer`'s default QUOTE_MINIMAL dialect: quoted
exactly when it holds the delimiter, the quote char, or a line-terminator
character. -/
def csvField (s : String) : String :=
  if s.data.contains ',' || s.data.contains '"'
      || s.data.contains '\r' || s.data.contains '\n'
  then "\"" ++ escapeQuotes s ++ "\""
  else s

/-- One CSV record (default dialect: comma separator, "\r\n" terminator). -/
def csvRow (fs : List String) : String :=
  String.intercalate "," (fs.map csvField) ++ "\r\n"

/-- The data rows written by `format_as_csv`: per day (ascending), per tag
(descending hours), the row `Date, Day, Tag, Hours, Annotations`. -/
def csvDataRows (r : WeeklyReport) : List String :=
  (getSortedDailyReports r).flatMap fun dr =>
    (sortTSDesc (dr.tag_summaries.map Prod.snd)).map fun ts =>
      csvRow [getFormattedDate dr.date, dayName dr.date, ts.tag,
              formatHours ts.total_hours,
              String.intercalate "; " (getFormattedAnnots ts)]

/-- `ReportGenerator.format_as_csv` (report_generator.py, lines 287-316). -/
def formatAsCsv (r : WeeklyReport) : String :=
  csvRow ["Date", "Day", "Tag", "Hours", "Annotations"]
  ++ String.join (csvDataRows r)

/-! ## Sums over the grouping folds (claim C1) -/

theorem sumDur_append (now : Int) (l1 l2 : List TimeEntry) :
    sumDur now (l1 ++ l2) = sumDur now l1 + sumDur now l2 := by
  simp [sumDur]

theorem groupSum_addEntryTag (now : Int)
    (m : List (String × List TimeEntry)) (t : String) (e : TimeEntry) :
    ((addEntryTag m t e).map fun p => sumDur now p.2).sum
      = (m.map fun p => sumDur now p.2).sum + getDurationHours now e := by
  induction m with
  | nil => simp [addEntryTag, sumDur]
  | cons hd tl ih =>
    obtain ⟨t', es⟩ := hd
    by_cases h : t = t'
    · simp only [addEntryTag, if_pos h, List.map_cons, List.sum_cons,
        sumDur_append]
      simp [sumDur]
      ring
    · simp only [addEntryTag, if_neg h, List.map_cons, List.sum_cons, ih]
      ring

theorem groupSum_weeklyFold (now : Int) (entries : List TimeEntry) :
    ∀ m : List (String × List TimeEntry),
    ((entries.foldl (fun m e => addEntryTag m (getPrimaryTag e) e) m).map
        fun p => sumDur now p.2).sum
      = (m.map fun p => sumDur now p.2).sum + sumDur now entries := by
  induction entries with
  | nil => intro m; simp [sumDur]
  | cons e rest ih =>
    intro m
    simp only [List.foldl_cons]
    rw [ih, groupSum_addEntryTag]
    simp only [sumDur, List.map_cons, List.sum_cons]
    ring

theorem groupSum2_addEntryDaily (now : Int)
    (m : List (Date × List (String × List TimeEntry)))
    (d : Date) (t : String) (e : TimeEntry) :
    ((addEntryDaily m d t e).map
        fun p => ((p.2.map fun q => sumDur now q.2).sum)).sum
      = (m.map fun p => ((p.2.map fun q => sumDur now q.2).sum)).sum
        + getDurationHours now e := by
  induction m with
  | nil => simp [addEntryDaily, addEntryTag, sumDur]
  | cons hd tl ih =>
    obtain ⟨d', g⟩ := hd
    by_cases h : d = d'
    · simp only [addEntryDaily, if_pos h, List.map_cons, List.sum_cons,
        groupSum_addEntryTag]
      ring
    · simp only [addEntryDaily, if_neg h, List.map_cons, List.sum_cons, ih]
      ring

theorem groupSum2_dailyFold (sd : Date) (now : Int)
    (entries : List TimeEntry) :
    ∀ m : List (Date × List (String × List TimeEntry)),
    ((entries.foldl
        (fun m e => addEntryDaily m (attrDate sd e) (getPrimaryTag e) e)
        m).map fun p => ((p.2.map fun q => sumDur now q.2).sum)).sum
      = (m.map fun p => ((p.2.map fun q => sumDur now q.2).sum)).sum
        + sumDur now entries := by
  induction entries with
  | nil => intro m; simp [sumDur]
  | cons e rest ih =>
    intro m
    simp only [List.foldl_cons]
    rw [ih, groupSum2_addEntryDaily]
    simp only [sumDur, List.map_cons, List.sum_cons]
    ring

/-- C1: for every entry sequence (all active-timer durations evaluated
against the one instant `now`), the sum of `DailyReport.total_hours` over
all days and the sum of `TagSummary.total_hours` over all range-wide
summaries both equal the Report's `total_hours`. -/
theorem report_totals_agree (entries : List TimeEntry) (sd ed : Date)
    (tg : Option (List String)) (now : Int) :
    (((generateReport entries sd ed tg now).daily_reports.map
        fun p => p.2.total_hours).sum
      = (generateReport entries sd ed tg now).total_hours)
    ∧ (((generateReport entries sd ed tg now).weekly_summaries.map
        fun p => p.2.total_hours).sum
      = (generateReport entries sd ed tg now).total_hours) := by
  constructor
  · simp only [generateReport, List.map_map, Function.comp_def,
      mkDailyReport, mkTagSummary, dailyData, weeklyData]
    rw [groupSum2_dailyFold sd now entries [], groupSum_weeklyFold now entries []]
    simp
  · simp only [generateReport, List.map_map, Function.comp_def, mkTagSummary]

/-! ## First-seen deduplication (claims C2, C4, C5) -/

/-- The `seen` set after `dedupBy` has processed `l`. -/
def seenAfter {α β : Type} [DecidableEq β] (key : α → β) :
    List β → List α → List β
  | seen, [] => seen
  | seen, a :: rest =>
      if key a ∈ seen then seenAfter key seen rest
      else seenAfter key (key a :: seen) rest

theorem seenAfter_mono {α β : Type} [DecidableEq β] (key : α → β)
    (l : List α) : ∀ seen : List β, ∀ b ∈ seen, b ∈ seenAfter key seen l := by
  induction l with
  | nil => intro seen b hb; exact hb
  | cons a rest ih =>
    intro seen b hb
    by_cases h : key a ∈ seen
    · simpa [seenAfter, h] using ih seen b hb
    · simp only [seenAfter, if_neg h]
      exact ih (key a :: seen) b (List.mem_cons_of_mem _ hb)

theorem mem_seenAfter {α β : Type} [DecidableEq β] (key : α → β)
    (l : List α) : ∀ seen : List β, ∀ a ∈ l, key a ∈ seenAfter key seen l := by
  induction l with
  | nil => intro seen a ha; cases ha
  | cons hd rest ih =>
    intro seen a ha
    rcases List.mem_cons.mp ha with rfl | hmem
    · by_cases h : key a ∈ seen
      · simp only [seenAfter, if_pos h]
        exact seenAfter_mono key rest seen _ h
      · simp only [seenAfter, if_neg h]
        exact seenAfter_mono key rest _ _ (List.mem_cons_self _ _)
    · by_cases h : key hd ∈ seen
      · simp only [seenAfter, if_pos h]
        exact ih seen a hmem
      · simp only [seenAfter, if_neg h]
        exact ih _ a hmem

theorem dedupBy_append {α β : Type} [DecidableEq β] (key : α → β)
    (l2 : List α) :
    ∀ (l1 : List α) (seen : List β),
    dedupBy key seen (l1 ++ l2)
      = dedupBy key seen l1 ++ dedupBy key (seenAfter key seen l1) l2 := by
  intro l1
  induction l1 with
  | nil => intro seen; simp [dedupBy, seenAfter]
  | cons a rest ih =>
    intro seen
    by_cases h : key a ∈ seen
    · show dedupBy key seen (a :: (rest ++ l2)) = _
      simp only [dedupBy, if_pos h, seenAfter]
      exact ih seen
    · show dedupBy key seen (a :: (rest ++ l2)) = _
      simp only [dedupBy, if_neg h, seenAfter]
      rw [ih (key a :: seen)]
      rfl

theorem dedupBy_of_seen {α β : Type} [DecidableEq β] (key : α → β)
    (l : List α) : ∀ seen : List β, (∀ a ∈ l, key a ∈ seen) →
    dedupBy key seen l = [] := by
  induction l with
  | nil => intro seen _; rfl
  | cons a rest ih =>
    intro seen h
    have ha : key a ∈ seen := h a (List.mem_cons_self _ _)
    simp only [dedupBy, if_pos ha]
    exact ih seen fun b hb => h b (List.mem_cons_of_mem _ hb)

theorem dedupBy_self_append {α β : Type} [DecidableEq β] (key : α → β)
    (seen : List β) (l : List α) :
    dedupBy key seen (l ++ l) = dedupBy key seen l := by
  rw [dedupBy_append]
  rw [dedupBy_of_seen key l (seenAfter key seen l)
        (fun a ha => mem_seenAfter key l seen a ha)]
  simp

theorem dedupBy_sublist {α β : Type} [DecidableEq β] (key : α → β)
    (l : List α) : ∀ seen : List β, (dedupBy key seen l).Sublist l := by
  induction l with
  | nil => intro seen; simp [dedupBy]
  | cons a rest ih =>
    intro seen
    by_cases h : key a ∈ seen
    · simp only [dedupBy, if_pos h]
      exact (ih seen).cons a
    · simp only [dedupBy, if_neg h]
      exact (ih (key a :: seen)).cons₂ a

theorem dedupBy_key_nodup {α β : Type} [DecidableEq β] (key : α → β)
    (l : List α) : ∀ seen : List β,
    ((dedupBy key seen l).map key).Nodup
    ∧ ∀ b ∈ (dedupBy key seen l).map key, b ∉ seen := by
  induction l with
  | nil => intro seen; simp [dedupBy]
  | cons a rest ih =>
    intro seen
    by_cases h : key a ∈ seen
    · simpa [dedupBy, h] using ih seen
    · simp only [dedupBy, if_neg h, List.map_cons]
      obtain ⟨hn, hs⟩ := ih (key a :: seen)
      refine ⟨List.nodup_cons.mpr ⟨?_, hn⟩, ?_⟩
      · intro hmem
        exact (hs _ hmem) (List.mem_cons_self _ _)
      · intro b hb hbs
        rcases List.mem_cons.mp hb with rfl | hb'
        · exact h hbs
        · exact hs b hb' (List.mem_cons_of_mem _ hbs)

theorem mem_key_dedupBy {α β : Type} [DecidableEq β] (key : α → β)
    (l : List α) : ∀ (seen : List β) (b : β),
    b ∈ (dedupBy key seen l).map key ↔ b ∈ l.map key ∧ b ∉ seen := by
  induction l with
  | nil => intro seen b; simp [dedupBy]
  | cons a rest ih =>
    intro seen b
    by_cases h : key a ∈ seen
    · simp only [dedupBy, if_pos h, List.map_cons, List.mem_cons]
      rw [ih seen b]
      constructor
      · rintro ⟨h1, h2⟩
        exact ⟨Or.inr h1, h2⟩
      · rintro ⟨h1 | h1, h2⟩
        · exact absurd (h1 ▸ h) h2
        · exact ⟨h1, h2⟩
    · simp only [dedupBy, if_neg h, List.map_cons, List.mem_cons]
      rw [ih (key a :: seen) b]
      constructor
      · rintro (rfl | ⟨h1, h2⟩)
        · exact ⟨Or.inl rfl, h⟩
        · exact ⟨Or.inr h1, fun hb => h2 (List.mem_cons_of_mem _ hb)⟩
      · rintro ⟨h1 | h1, h2⟩
        · exact Or.inl h1
        · by_cases hb : b = key a
          · exact Or.inl hb
          · exact Or.inr ⟨h1, fun hc => (List.mem_cons.mp hc).elim hb h2⟩

/-! ## Concrete sample inputs used by counterexamples and witnesses -/

/-- 2026-01-12, a Monday (the date the repository's own tests use). -/
def cDate : Date := ⟨2026, 1, 12⟩

def cDateEnd : Date := ⟨2026, 1, 18⟩

/-- A one-hour closed entry tagged `work`. -/
def cEntry : TimeEntry := ⟨7, 0, some 3600, ["work"], some "Test task", some cDate⟩

/-- An active entry (no end time) tagged `work`. -/
def cActive : TimeEntry := ⟨8, 0, none, ["work"], none, some cDate⟩

theorem roundHalfEven_intCast (n : ℤ) : roundHalfEven ((n : ℚ)) = n := by
  unfold roundHalfEven
  rw [Int.floor_intCast]
  norm_num

/-- C6: the empty entry sequence yields a Report with empty `daily_reports`
and `weekly_summaries` maps and zero `total_hours`, for any range
(`generate_report` is total: no exception path exists for empty input). -/
theorem empty_entries_empty_report (sd ed : Date) (tg : Option (List String))
    (now : Int) :
    (generateReport [] sd ed tg now).daily_reports = []
    ∧ (generateReport [] sd ed tg now).weekly_summaries = []
    ∧ (generateReport [] sd ed tg now).total_hours = 0 :=
  ⟨rfl, rfl, rfl⟩

/-- C9: `generate_report` stores the `tags` argument verbatim and produces
the same `daily_reports`, `weekly_summaries` and `total_hours` whatever
that argument is — the engine performs no tag filtering. -/
theorem tags_stored_not_enforced (entries : List TimeEntry) (sd ed : Date)
    (t1 t2 : Option (List String)) (now : Int) :
    (generateReport entries sd ed t1 now).tags = t1
    ∧ (generateReport entries sd ed t1 now).daily_reports
        = (generateReport entries sd ed t2 now).daily_reports
    ∧ (generateReport entries sd ed t1 now).weekly_summaries
        = (generateReport entries sd ed t2 now).weekly_summaries
    ∧ (generateReport entries sd ed t1 now).total_hours
        = (generateReport entries sd ed t2 now).total_hours :=
  ⟨rfl, rfl, rfl, rfl⟩

/-- C2 counterexample: `generate_report` itself does not deduplicate:
aggregating `[cEntry, cEntry]` (the same id twice) does not equal
aggregating `[cEntry]` — the duplicated input doubles every total. -/
theorem dedup_not_in_engine_cex :
    generateReport [cEntry, cEntry] cDate cDateEnd none 0
      ≠ generateReport [cEntry] cDate cDateEnd none 0 := by
  intro h
  have h2 := congrArg WeeklyReport.total_hours h
  have hl : (generateReport [cEntry, cEntry] cDate cDateEnd none 0).total_hours
      = 2 := by
    simp [generateReport, weeklyData, addEntryTag, getPrimaryTag, sumDur,
      getDurationHours, cEntry]
    norm_num
  have hr : (generateReport [cEntry] cDate cDateEnd none 0).total_hours
      = 1 := by
    simp [generateReport, weeklyData, addEntryTag, getPrimaryTag, sumDur,
      getDurationHours, cEntry]
  rw [hl, hr] at h2
  norm_num at h2

/-- C2 (amended): deduplication by id is performed upstream, by the CLI
helper `_remove_duplicate_entries`, which keeps the first entry seen for
each id; `generate_report` itself keeps duplicates.  With the helper in
the pipeline the claimed idempotence holds: deduplicating `es ++ es`
equals deduplicating `es`, so the aggregated Reports are identical; the
helper's output has pairwise-distinct ids, is a subsequence of its input,
and covers exactly the input's ids. -/
theorem dedup_by_cli_helper_idempotent (es : List TimeEntry) (sd ed : Date)
    (tg : Option (List String)) (now : Int) :
    removeDuplicateEntries (es ++ es) = removeDuplicateEntries es
    ∧ generateReport (removeDuplicateEntries (es ++ es)) sd ed tg now
        = generateReport (removeDuplicateEntries es) sd ed tg now
    ∧ (removeDuplicateEntries es).Sublist es
    ∧ ((removeDuplicateEntries es).map TimeEntry.id).Nodup
    ∧ (∀ i : Int, i ∈ (removeDuplicateEntries es).map TimeEntry.id
          ↔ i ∈ es.map TimeEntry.id) := by
  have h1 : removeDuplicateEntries (es ++ es) = removeDuplicateEntries es :=
    dedupBy_self_append _ _ _
  refine ⟨h1, by rw [h1], dedupBy_sublist _ _ _,
    (dedupBy_key_nodup _ _ _).1, ?_⟩
  intro i
  rw [removeDuplicateEntries, mem_key_dedupBy]
  simp [TimeEntry.id]

theorem dedupBy_nil_iff {α β : Type} [DecidableEq β] (key : α → β)
    (l : List α) : dedupBy key [] l = [] ↔ l = [] := by
  cases l with
  | nil => simp [dedupBy]
  | cons a rest => simp [dedupBy]

/-- C4: `get_formatted_annotations` never returns an empty list.  When the
summary has no non-blank annotation the result is exactly the synthetic
placeholder `"Work on {tag} related tasks"`; otherwise it is the non-blank
annotations deduplicated keeping first occurrences: duplicate-free, a
subsequence of the non-blank annotations (so in first-seen order), and
containing exactly their values. -/
theorem formatted_annots_spec (ts : TagSummary) :
    getFormattedAnnots ts ≠ []
    ∧ (ts.annots.filter nonBlank = [] →
        getFormattedAnnots ts = ["Work on " ++ ts.tag ++ " related tasks"])
    ∧ (ts.annots.filter nonBlank ≠ [] →
        getFormattedAnnots ts
            = dedupBy (fun s => s) [] (ts.annots.filter nonBlank)
          ∧ (getFormattedAnnots ts).Nodup
          ∧ (getFormattedAnnots ts).Sublist (ts.annots.filter nonBlank)
          ∧ ∀ a : String,
              a ∈ getFormattedAnnots ts ↔ a ∈ ts.annots.filter nonBlank) := by
  by_cases h0 : ts.annots = []
  · refine ⟨by simp [getFormattedAnnots, h0], ?_, ?_⟩
    · intro _; simp [getFormattedAnnots, h0]
    · intro hne; exact absurd (by simp [h0]) hne
  · by_cases h1 : dedupBy (fun s => s) [] (ts.annots.filter nonBlank) = []
    · have hf : ts.annots.filter nonBlank = [] :=
        (dedupBy_nil_iff _ _).mp h1
      refine ⟨?_, ?_, ?_⟩
      · simp [getFormattedAnnots, h0, hf, dedupBy]
      · intro _; simp [getFormattedAnnots, h0, hf, dedupBy]
      · intro hne; exact absurd hf hne
    · have hfne : ts.annots.filter nonBlank ≠ [] := by
        intro hf; rw [hf] at h1; exact h1 rfl
      have hval : getFormattedAnnots ts
          = dedupBy (fun s => s) [] (ts.annots.filter nonBlank) := by
        simp [getFormattedAnnots, h0, h1]
      refine ⟨?_, fun hf => absurd hf hfne, fun _ => ⟨hval, ?_, ?_, ?_⟩⟩
      · rw [hval]; exact h1
      · rw [hval]
        have := (dedupBy_key_nodup (fun s => s)
          (ts.annots.filter nonBlank) []).1
        simpa using this
      · rw [hval]; exact dedupBy_sublist _ _ _
      · intro a
        rw [hval]
        have := mem_key_dedupBy (fun s => s) (ts.annots.filter nonBlank) [] a
        simpa using this

/-! ## The stable descending sort (claims C5, C7) -/

theorem insertTS_perm (x : TagSummary) (l : List TagSummary) :
    List.Perm (insertTS x l) (x :: l) := by
  induction l with
  | nil => simp [insertTS]
  | cons y ys ih =>
    by_cases h : y.total_hours ≤ x.total_hours
    · simp [insertTS, h]
    · simp only [insertTS, if_neg h]
      exact (List.Perm.cons y ih).trans (List.Perm.swap x y ys)

theorem sortTSDesc_perm (l : List TagSummary) :
    List.Perm (sortTSDesc l) l := by
  induction l with
  | nil => simp [sortTSDesc]
  | cons x xs ih =>
    have : sortTSDesc (x :: xs) = insertTS x (sortTSDesc xs) := rfl
    rw [this]
    exact (insertTS_perm x (sortTSDesc xs)).trans (List.Perm.cons x ih)

theorem insertTS_pairwise (x : TagSummary) (l : List TagSummary)
    (hl : l.Pairwise fun a b => b.total_hours ≤ a.total_hours) :
    (insertTS x l).Pairwise fun a b => b.total_hours ≤ a.total_hours := by
  induction l with
  | nil => simp [insertTS]
  | cons y ys ih =>
    rcases List.pairwise_cons.mp hl with ⟨hy, hys⟩
    by_cases h : y.total_hours ≤ x.total_hours
    · simp only [insertTS, if_pos h]
      refine List.pairwise_cons.mpr ⟨?_, hl⟩
      intro z hz
      rcases List.mem_cons.mp hz with rfl | hz'
      · exact h
      · exact le_trans (hy z hz') h
    · simp only [insertTS, if_neg h]
      refine List.pairwise_cons.mpr ⟨?_, ih hys⟩
      intro z hz
      have hz2 := (insertTS_perm x ys).mem_iff.mp hz
      rcases List.mem_cons.mp hz2 with rfl | hz'
      · exact le_of_not_le h
      · exact hy z hz'

theorem sortTSDesc_pairwise (l : List TagSummary) :
    (sortTSDesc l).Pairwise fun a b => b.total_hours ≤ a.total_hours := by
  induction l with
  | nil => simp [sortTSDesc]
  | cons x xs ih => exact insertTS_pairwise x (sortTSDesc xs) ih

theorem insertTS_filter_eq (x : TagSummary) (l : List TagSummary) (q : ℚ) :
    (insertTS x l).filter (fun t => t.total_hours = q)
      = (if x.total_hours = q then [x] else [])
        ++ l.filter fun t => t.total_hours = q := by
  induction l with
  | nil =>
    by_cases hx : x.total_hours = q <;> simp [insertTS, hx]
  | cons y ys ih =>
    by_cases h : y.total_hours ≤ x.total_hours
    · simp only [insertTS, if_pos h]
      by_cases hx : x.total_hours = q <;> simp [List.filter_cons, hx]
    · simp only [insertTS, if_neg h, List.filter_cons]
      by_cases hy : y.total_hours = q
      · have hx : ¬ x.total_hours = q := by
          intro hx
          exact h (le_of_eq (hy.trans hx.symm))
        simp [hy, hx, ih]
      · simp [hy, ih]

theorem sortTSDesc_filter_eq (l : List TagSummary) (q : ℚ) :
    (sortTSDesc l).filter (fun t => t.total_hours = q)
      = l.filter fun t => t.total_hours = q := by
  induction l with
  | nil => simp [sortTSDesc]
  | cons x xs ih =>
    have hstep : sortTSDesc (x :: xs) = insertTS x (sortTSDesc xs) := rfl
    rw [hstep, insertTS_filter_eq, ih, List.filter_cons]
    by_cases hx : x.total_hours = q <;> simp [hx]

theorem insertDateAsc_perm (d : Date) (l : List Date) :
    List.Perm (insertDateAsc d l) (d :: l) := by
  induction l with
  | nil => simp [insertDateAsc]
  | cons x xs ih =>
    by_cases h : dateLe d x
    · simp [insertDateAsc, h]
    · simp only [insertDateAsc, if_neg h]
      exact (List.Perm.cons x ih).trans (List.Perm.swap d x xs)

theorem sortDatesAsc_perm (l : List Date) :
    List.Perm (sortDatesAsc l) l := by
  induction l with
  | nil => simp [sortDatesAsc]
  | cons x xs ih =>
    have hstep : sortDatesAsc (x :: xs) = insertDateAsc x (sortDatesAsc xs) :=
      rfl
    rw [hstep]
    exact (insertDateAsc_perm x (sortDatesAsc xs)).trans (List.Perm.cons x ih)

theorem insertDateAsc_pairwise (d : Date) (l : List Date)
    (hl : l.Pairwise dateLe) : (insertDateAsc d l).Pairwise dateLe := by
  induction l with
  | nil => simp [insertDateAsc]
  | cons x xs ih =>
    rcases List.pairwise_cons.mp hl with ⟨hx, hxs⟩
    by_cases h : dateLe d x
    · simp only [insertDateAsc, if_pos h]
      refine List.pairwise_cons.mpr ⟨?_, hl⟩
      intro z hz
      rcases List.mem_cons.mp hz with rfl | hz'
      · exact h
      · exact dateLe_trans h (hx z hz')
    · simp only [insertDateAsc, if_neg h]
      refine List.pairwise_cons.mpr ⟨?_, ih hxs⟩
      intro z hz
      have hz2 := (insertDateAsc_perm d xs).mem_iff.mp hz
      rcases List.mem_cons.mp hz2 with rfl | hz'
      · exact (dateLe_total x z).resolve_right h
      · exact hx z hz'

theorem sortDatesAsc_pairwise (l : List Date) :
    (sortDatesAsc l).Pairwise dateLe := by
  induction l with
  | nil => simp [sortDatesAsc]
  | cons x xs ih => exact insertDateAsc_pairwise x (sortDatesAsc xs) ih

/-! ## Key order of the grouping folds (claims C5, C7, C10) -/

theorem keys_addEntryTag (m : List (String × List TimeEntry)) (t : String)
    (e : TimeEntry) :
    (addEntryTag m t e).map Prod.fst
      = if t ∈ m.map Prod.fst then m.map Prod.fst
        else m.map Prod.fst ++ [t] := by
  induction m with
  | nil => simp [addEntryTag]
  | cons hd tl ih =>
    obtain ⟨t', es⟩ := hd
    by_cases h : t = t'
    · simp [addEntryTag, h]
    · simp only [addEntryTag, if_neg h, List.map_cons, ih]
      by_cases h2 : t ∈ tl.map Prod.fst
      · simp [h2, List.mem_cons, h]
      · simp [h2, List.mem_cons, h]

theorem keys_addEntryDaily
    (m : List (Date × List (String × List TimeEntry)))
    (d : Date) (t : String) (e : TimeEntry) :
    (addEntryDaily m d t e).map Prod.fst
      = if d ∈ m.map Prod.fst then m.map Prod.fst
        else m.map Prod.fst ++ [d] := by
  induction m with
  | nil => simp [addEntryDaily]
  | cons hd tl ih =>
    obtain ⟨d', g⟩ := hd
    by_cases h : d = d'
    · simp [addEntryDaily, h]
    · simp only [addEntryDaily, if_neg h, List.map_cons, ih]
      by_cases h2 : d ∈ tl.map Prod.fst
      · simp [h2, List.mem_cons, h]
      · simp [h2, List.mem_cons, h]

theorem map_key_dedupBy {α β : Type} [DecidableEq β] (key : α → β)
    (l : List α) : ∀ seen : List β,
    (dedupBy key seen l).map key = dedupBy (fun b => b) seen (l.map key) := by
  induction l with
  | nil => intro seen; simp [dedupBy]
  | cons a rest ih =>
    intro seen
    by_cases h : key a ∈ seen
    · simp only [dedupBy, if_pos h, List.map_cons, ih]
    · simp only [dedupBy, if_neg h, List.map_cons, ih]

theorem keys_weeklyFold (entries : List TimeEntry) :
    ∀ (m : List (String × List TimeEntry)) (seen : List String),
    (∀ s : String, s ∈ seen ↔ s ∈ m.map Prod.fst) →
    (entries.foldl (fun m e => addEntryTag m (getPrimaryTag e) e) m).map
        Prod.fst
      = m.map Prod.fst
        ++ (dedupBy getPrimaryTag seen entries).map getPrimaryTag := by
  induction entries with
  | nil => intro m seen _; simp [dedupBy]
  | cons e rest ih =>
    intro m seen hseen
    by_cases h : getPrimaryTag e ∈ seen
    · have hkeys : (addEntryTag m (getPrimaryTag e) e).map Prod.fst
          = m.map Prod.fst := by
        rw [keys_addEntryTag, if_pos ((hseen _).mp h)]
      simp only [List.foldl_cons, dedupBy, if_pos h]
      rw [ih (addEntryTag m (getPrimaryTag e) e) seen
            (fun s => by rw [hkeys]; exact hseen s), hkeys]
    · have hkeys : (addEntryTag m (getPrimaryTag e) e).map Prod.fst
          = m.map Prod.fst ++ [getPrimaryTag e] := by
        rw [keys_addEntryTag,
          if_neg (fun hmem => h ((hseen _).mpr hmem))]
      simp only [List.foldl_cons, dedupBy, if_neg h]
      rw [ih (addEntryTag m (getPrimaryTag e) e) (getPrimaryTag e :: seen)
            (fun s => by
              rw [hkeys]
              simp only [List.mem_cons, List.mem_append,
                List.mem_singleton, List.not_mem_nil, or_false, hseen s]
              exact or_comm),
          hkeys]
      simp

theorem keys_dailyFold (sd : Date) (entries : List TimeEntry) :
    ∀ (m : List (Date × List (String × List TimeEntry))) (seen : List Date),
    (∀ d : Date, d ∈ seen ↔ d ∈ m.map Prod.fst) →
    (entries.foldl
        (fun m e => addEntryDaily m (attrDate sd e) (getPrimaryTag e) e)
        m).map Prod.fst
      = m.map Prod.fst
        ++ (dedupBy (attrDate sd) seen entries).map (attrDate sd) := by
  induction entries with
  | nil => intro m seen _; simp [dedupBy]
  | cons e rest ih =>
    intro m seen hseen
    by_cases h : attrDate sd e ∈ seen
    · have hkeys : (addEntryDaily m (attrDate sd e) (getPrimaryTag e) e).map
          Prod.fst = m.map Prod.fst := by
        rw [keys_addEntryDaily, if_pos ((hseen _).mp h)]
      simp only [List.foldl_cons, dedupBy, if_pos h]
      rw [ih _ seen (fun d => by rw [hkeys]; exact hseen d), hkeys]
    · have hkeys : (addEntryDaily m (attrDate sd e) (getPrimaryTag e) e).map
          Prod.fst = m.map Prod.fst ++ [attrDate sd e] := by
        rw [keys_addEntryDaily,
          if_neg (fun hmem => h ((hseen _).mpr hmem))]
      simp only [List.foldl_cons, dedupBy, if_neg h]
      rw [ih _ (attrDate sd e :: seen)
            (fun d => by
              rw [hkeys]
              simp only [List.mem_cons, List.mem_append,
                List.mem_singleton, List.not_mem_nil, or_false, hseen d]
              exact or_comm),
          hkeys]
      simp

theorem lookup_addEntryDaily
    (m : List (Date × List (String × List TimeEntry)))
    (dd d : Date) (t : String) (e : TimeEntry) :
    lookupKey (addEntryDaily m dd t e) d
      = if d = dd then some (addEntryTag ((lookupKey m dd).getD []) t e)
        else lookupKey m d := by
  induction m with
  | nil =>
    by_cases h : d = dd
    · simp [addEntryDaily, addEntryTag, lookupKey, h]
    · simp [addEntryDaily, addEntryTag, lookupKey, h]
  | cons hd tl ih =>
    obtain ⟨d0, g⟩ := hd
    by_cases h0 : dd = d0
    · subst h0
      by_cases h : d = dd
      · simp [addEntryDaily, lookupKey, h]
      · simp [addEntryDaily, lookupKey, h]
    · simp only [addEntryDaily, if_neg h0]
      by_cases h : d = d0
      · subst h
        have hne : ¬ d = dd := fun hc => h0 hc.symm
        simp [lookupKey, hne]
      · simp only [lookupKey, if_neg h, ih]
        by_cases h2 : d = dd
        · subst h2
          have : ¬ d = d0 := h
          simp [lookupKey, this]
        · simp [h2]

theorem lookup_dailyFold (sd : Date) (entries : List TimeEntry) :
    ∀ (m : List (Date × List (String × List TimeEntry))) (d : Date),
    lookupKey (entries.foldl
        (fun m e => addEntryDaily m (attrDate sd e) (getPrimaryTag e) e) m) d
      = if entries.filter (fun e => decide (attrDate sd e = d)) = [] then
          lookupKey m d
        else
          some ((entries.filter (fun e => decide (attrDate sd e = d))).foldl
            (fun g e => addEntryTag g (getPrimaryTag e) e)
            ((lookupKey m d).getD [])) := by
  induction entries with
  | nil => intro m d; simp
  | cons e rest ih =>
    intro m d
    by_cases he : attrDate sd e = d
    · have hfil : (e :: rest).filter (fun e => decide (attrDate sd e = d))
          = e :: rest.filter (fun e => decide (attrDate sd e = d)) := by
        simp [List.filter_cons, he]
      have hm' : lookupKey
          (addEntryDaily m (attrDate sd e) (getPrimaryTag e) e) d
          = some (addEntryTag ((lookupKey m d).getD []) (getPrimaryTag e) e) := by
        rw [lookup_addEntryDaily]
        rw [if_pos he.symm, he]
      rw [List.foldl_cons, ih, hfil,
        if_neg (List.cons_ne_nil _ _), List.foldl_cons]
      by_cases hr : rest.filter (fun e => decide (attrDate sd e = d)) = []
      · rw [if_pos hr, hm', hr]
        simp
      · rw [if_neg hr, hm']
        simp
    · have hfil : (e :: rest).filter (fun e => decide (attrDate sd e = d))
          = rest.filter (fun e => decide (attrDate sd e = d)) := by
        simp [List.filter_cons, he]
      have hm' : lookupKey
          (addEntryDaily m (attrDate sd e) (getPrimaryTag e) e) d
          = lookupKey m d := by
        rw [lookup_addEntryDaily, if_neg (fun hc => he hc.symm)]
      rw [List.foldl_cons, ih, hfil, hm']

theorem lookup_eq_of_mem_nodup {κ γ : Type} [DecidableEq κ]
    (m : List (κ × γ)) (hnd : (m.map Prod.fst).Nodup) (k : κ) (v : γ)
    (hm : (k, v) ∈ m) : lookupKey m k = some v := by
  induction m with
  | nil => cases hm
  | cons hd tl ih =>
    obtain ⟨k0, v0⟩ := hd
    rcases List.mem_cons.mp hm with heq | hmem
    · injection heq with h1 h2
      subst h1; subst h2
      simp [lookupKey]
    · have hk : k ≠ k0 := by
        intro hc
        subst hc
        have : k ∈ tl.map Prod.fst :=
          List.mem_map.mpr ⟨(k, v), hmem, rfl⟩
        exact (List.nodup_cons.mp hnd).1 this
      simp only [lookupKey, if_neg hk]
      exact ih (List.nodup_cons.mp hnd).2 hmem

theorem map_keys_lookup {κ γ : Type} [DecidableEq κ] (m : List (κ × γ))
    (f : κ → γ) (hnd : (m.map Prod.fst).Nodup) :
    (m.map Prod.fst).map (fun k => (lookupKey m k).getD (f k))
      = m.map Prod.snd := by
  induction m with
  | nil => rfl
  | cons hd tl ih =>
    obtain ⟨k0, v0⟩ := hd
    rcases List.nodup_cons.mp hnd with ⟨hk0, htl⟩
    simp only [List.map_cons]
    have h1 : (lookupKey ((k0, v0) :: tl) k0).getD (f k0) = v0 := by
      simp [lookupKey]
    have h2 : (tl.map Prod.fst).map
          (fun k => (lookupKey ((k0, v0) :: tl) k).getD (f k))
        = (tl.map Prod.fst).map (fun k => (lookupKey tl k).getD (f k)) :=
      List.map_congr_left (fun k hk => by
        have hne : k ≠ k0 := fun hc => hk0 (hc ▸ hk)
        simp [lookupKey, hne])
    rw [h1, h2, ih htl]

/-- The primary tags of `entries` in first-encounter order (the iteration
order of the aggregation dicts). -/
def firstTags (entries : List TimeEntry) : List String :=
  dedupBy (fun s => s) [] (entries.map getPrimaryTag)

theorem weeklyData_keys (entries : List TimeEntry) :
    (weeklyData entries).map Prod.fst = firstTags entries := by
  rw [weeklyData, keys_weeklyFold entries [] [] (by simp)]
  simp [firstTags, map_key_dedupBy]

theorem dailyData_keys (sd : Date) (entries : List TimeEntry) :
    (dailyData sd entries).map Prod.fst
      = (dedupBy (attrDate sd) [] entries).map (attrDate sd) := by
  rw [dailyData, keys_dailyFold sd entries [] [] (by simp)]
  simp

theorem dailyData_keys_nodup (sd : Date) (entries : List TimeEntry) :
    ((dailyData sd entries).map Prod.fst).Nodup := by
  rw [dailyData_keys]
  exact (dedupBy_key_nodup (attrDate sd) entries []).1

theorem dailyGroup_tags (sd : Date) (entries : List TimeEntry) (d : Date)
    (g : List (String × List TimeEntry))
    (hg : lookupKey (dailyData sd entries) d = some g) :
    g.map Prod.fst
      = firstTags (entries.filter fun e => decide (attrDate sd e = d)) := by
  rw [dailyData, lookup_dailyFold] at hg
  by_cases hf : entries.filter (fun e => decide (attrDate sd e = d)) = []
  · rw [if_pos hf] at hg
    simp [lookupKey] at hg
  · rw [if_neg hf] at hg
    have hg2 : g = (entries.filter
        fun e => decide (attrDate sd e = d)).foldl
          (fun g e => addEntryTag g (getPrimaryTag e) e) [] := by
      have := hg.symm
      simp only [lookupKey, Option.getD_none] at this
      exact (Option.some.injEq _ _ ▸ this : _)
    rw [hg2, keys_weeklyFold _ [] [] (by simp)]
    simp [firstTags, map_key_dedupBy]

/-- C5: in the Report the engine produces, the sorted views the renderers
iterate over — `get_sorted_weekly_summaries` for the range-wide table and
`sorted(tag_summaries.values(), key=hours, reverse=True)` for each day's
table — are in descending `total_hours` order; summaries with equal hours
keep the order of the underlying dict (the sort is stable), and that dict
order is exactly the order tags were first encountered during aggregation
(range-wide, respectively among the day's own entries). -/
theorem rendered_tag_order (entries : List TimeEntry) (sd ed : Date)
    (tg : Option (List String)) (now : Int) :
    ((getSortedWeeklySummaries (generateReport entries sd ed tg now)).Pairwise
        fun a b => b.total_hours ≤ a.total_hours)
    ∧ (∀ q : ℚ,
        (getSortedWeeklySummaries
            (generateReport entries sd ed tg now)).filter
            (fun t => t.total_hours = q)
          = ((generateReport entries sd ed tg now).weekly_summaries.map
              Prod.snd).filter fun t => t.total_hours = q)
    ∧ (generateReport entries sd ed tg now).weekly_summaries.map Prod.fst
        = firstTags entries
    ∧ ∀ d dr,
        (d, dr) ∈ (generateReport entries sd ed tg now).daily_reports →
        ((sortTSDesc (dr.tag_summaries.map Prod.snd)).Pairwise
            fun a b => b.total_hours ≤ a.total_hours)
        ∧ (∀ q : ℚ,
            (sortTSDesc (dr.tag_summaries.map Prod.snd)).filter
                (fun t => t.total_hours = q)
              = (dr.tag_summaries.map Prod.snd).filter
                  fun t => t.total_hours = q)
        ∧ dr.tag_summaries.map Prod.fst
            = firstTags (entries.filter fun e => decide (attrDate sd e = d)) := by
  refine ⟨sortTSDesc_pairwise _, fun q => sortTSDesc_filter_eq _ q, ?_, ?_⟩
  · show ((weeklyData entries).map
        fun p => (p.1, mkTagSummary now p.1 p.2)).map Prod.fst = _
    rw [List.map_map]
    exact weeklyData_keys entries
  · intro d dr hmem
    obtain ⟨p, hp, heq⟩ := List.mem_map.mp hmem
    injection heq with h1 h2
    subst h1
    subst h2
    refine ⟨sortTSDesc_pairwise _, fun q => sortTSDesc_filter_eq _ q, ?_⟩
    have hlook : lookupKey (dailyData sd entries) p.1 = some p.2 :=
      lookup_eq_of_mem_nodup _ (dailyData_keys_nodup sd entries) p.1 p.2
        (by simpa using hp)
    have htags := dailyGroup_tags sd entries p.1 p.2 hlook
    show ((p.2.map fun q => (q.1, mkTagSummary now q.1 q.2)).map Prod.fst) = _
    rw [List.map_map]
    exact htags

/-! ## Report generation only reads durations of input entries (claim C3) -/

theorem mem_addEntryTag_flat (m : List (String × List TimeEntry))
    (t : String) (e x : TimeEntry) :
    x ∈ (addEntryTag m t e).flatMap Prod.snd
      ↔ x ∈ m.flatMap Prod.snd ∨ x = e := by
  induction m with
  | nil => simp [addEntryTag]
  | cons hd tl ih =>
    obtain ⟨t', es⟩ := hd
    by_cases h : t = t'
    · simp only [addEntryTag, if_pos h, List.flatMap_cons, List.mem_append]
      simp only [List.mem_append, List.mem_singleton]
      tauto
    · simp only [addEntryTag, if_neg h, List.flatMap_cons, List.mem_append,
        ih]
      tauto

theorem mem_weeklyFold_flat (entries : List TimeEntry) :
    ∀ (m : List (String × List TimeEntry)) (x : TimeEntry),
    x ∈ ((entries.foldl (fun m e => addEntryTag m (getPrimaryTag e) e)
        m).flatMap Prod.snd) → x ∈ m.flatMap Prod.snd ∨ x ∈ entries := by
  induction entries with
  | nil => intro m x hx; exact Or.inl hx
  | cons e rest ih =>
    intro m x hx
    rcases ih (addEntryTag m (getPrimaryTag e) e) x hx with hin | hin
    · rcases (mem_addEntryTag_flat m (getPrimaryTag e) e x).mp hin with
        hin2 | rfl
      · exact Or.inl hin2
      · exact Or.inr (List.mem_cons_self _ _)
    · exact Or.inr (List.mem_cons_of_mem _ hin)

theorem mem_addEntryDaily_flat
    (m : List (Date × List (String × List TimeEntry)))
    (d : Date) (t : String) (e x : TimeEntry) :
    x ∈ (addEntryDaily m d t e).flatMap (fun p => p.2.flatMap Prod.snd)
      ↔ x ∈ m.flatMap (fun p => p.2.flatMap Prod.snd) ∨ x = e := by
  induction m with
  | nil => simp [addEntryDaily, addEntryTag]
  | cons hd tl ih =>
    obtain ⟨d', g⟩ := hd
    by_cases h : d = d'
    · simp only [addEntryDaily, if_pos h, List.flatMap_cons,
        List.mem_append, mem_addEntryTag_flat]
      tauto
    · simp only [addEntryDaily, if_neg h, List.flatMap_cons,
        List.mem_append, ih]
      tauto

theorem mem_dailyFold_flat (sd : Date) (entries : List TimeEntry) :
    ∀ (m : List (Date × List (String × List TimeEntry))) (x : TimeEntry),
    x ∈ ((entries.foldl
        (fun m e => addEntryDaily m (attrDate sd e) (getPrimaryTag e) e)
        m).flatMap fun p => p.2.flatMap Prod.snd)
      → x ∈ m.flatMap (fun p => p.2.flatMap Prod.snd) ∨ x ∈ entries := by
  induction entries with
  | nil => intro m x hx; exact Or.inl hx
  | cons e rest ih =>
    intro m x hx
    rcases ih (addEntryDaily m (attrDate sd e) (getPrimaryTag e) e) x hx with
      hin | hin
    · rcases (mem_addEntryDaily_flat m (attrDate sd e) (getPrimaryTag e) e
          x).mp hin with hin2 | rfl
      · exact Or.inl hin2
      · exact Or.inr (List.mem_cons_self _ _)
    · exact Or.inr (List.mem_cons_of_mem _ hin)

theorem mkTagSummary_now_congr (now1 now2 : Int) (t : String)
    (es : List TimeEntry)
    (h : ∀ x ∈ es, getDurationHours now1 x = getDurationHours now2 x) :
    mkTagSummary now1 t es = mkTagSummary now2 t es := by
  unfold mkTagSummary sumDur
  rw [List.map_congr_left h]

theorem generateReport_now_congr (entries : List TimeEntry) (sd ed : Date)
    (tg : Option (List String)) (now1 now2 : Int)
    (h : ∀ e ∈ entries, getDurationHours now1 e = getDurationHours now2 e) :
    generateReport entries sd ed tg now1
      = generateReport entries sd ed tg now2 := by
  have hw : ∀ p ∈ weeklyData entries, ∀ x ∈ p.2,
      getDurationHours now1 x = getDurationHours now2 x := by
    intro p hp x hx
    apply h
    have hflat : x ∈ (weeklyData entries).flatMap Prod.snd :=
      List.mem_flatMap.mpr ⟨p, hp, hx⟩
    rcases mem_weeklyFold_flat entries [] x hflat with hnil | hmem
    · cases hnil
    · exact hmem
  have hd : ∀ p ∈ dailyData sd entries, ∀ g ∈ p.2, ∀ x ∈ g.2,
      getDurationHours now1 x = getDurationHours now2 x := by
    intro p hp g hg x hx
    apply h
    have hflat : x ∈ (dailyData sd entries).flatMap
        fun p => p.2.flatMap Prod.snd :=
      List.mem_flatMap.mpr ⟨p, hp, List.mem_flatMap.mpr ⟨g, hg, hx⟩⟩
    rcases mem_dailyFold_flat sd entries [] x hflat with hnil | hmem
    · cases hnil
    · exact hmem
  rw [generateReport, generateReport, WeeklyReport.mk.injEq]
  refine ⟨rfl, ?_, ?_, ?_, rfl, rfl⟩
  · apply List.map_congr_left
    intro p hp
    have : mkDailyReport now1 p.1 p.2 = mkDailyReport now2 p.1 p.2 := by
      unfold mkDailyReport
      rw [DailyReport.mk.injEq]
      refine ⟨rfl, ?_, ?_⟩
      · apply List.map_congr_left
        intro g hg
        rw [mkTagSummary_now_congr now1 now2 g.1 g.2 (hd p hp g hg)]
      · apply congrArg
        apply List.map_congr_left
        intro g hg
        show sumDur now1 g.2 = sumDur now2 g.2
        unfold sumDur
        rw [List.map_congr_left (hd p hp g hg)]
    rw [this]
  · apply List.map_congr_left
    intro p hp
    rw [mkTagSummary_now_congr now1 now2 p.1 p.2 (hw p hp)]
  · apply congrArg
    apply List.map_congr_left
    intro p hp
    show sumDur now1 p.2 = sumDur now2 p.2
    unfold sumDur
    rw [List.map_congr_left (hw p hp)]

/-- C3 (amended): rendering is deterministic given the evaluation instant:
for inputs with no active entry (every `end` present) the aggregated
Report, hence its Markdown rendering, is byte-for-byte identical across
runs whatever the two runs' clock instants are.  (For inputs containing
active entries the rendering can differ between runs — see the
counterexample — because `get_duration_hours` re-reads the clock.) -/
theorem markdown_rerun_no_active (entries : List TimeEntry) (sd ed : Date)
    (tg : Option (List String)) (now1 now2 : Int)
    (h : ∀ e ∈ entries, e.endTime ≠ none) :
    formatAsMarkdown (generateReport entries sd ed tg now1)
      = formatAsMarkdown (generateReport entries sd ed tg now2) := by
  have hdur : ∀ e ∈ entries,
      getDurationHours now1 e = getDurationHours now2 e := by
    intro e he
    rcases hv : e.endTime with _ | v
    · exact absurd hv (h e he)
    · simp [getDurationHours, hv]
  rw [generateReport_now_congr entries sd ed tg now1 now2 hdur]

theorem markdown_rerun_no_active_witness :
    formatAsMarkdown (generateReport [cEntry] cDate cDateEnd none 0)
      = formatAsMarkdown (generateReport [cEntry] cDate cDateEnd none 7200) :=
  markdown_rerun_no_active [cEntry] cDate cDateEnd none 0 7200 (by decide)

theorem formatHours_one : formatHours (1 : ℚ) = "1.00" := by
  have h : ((1 : ℚ) * 100) = ((100 : ℤ) : ℚ) := by norm_num
  unfold formatHours
  rw [h, roundHalfEven_intCast]
  rfl

theorem formatHours_two : formatHours (2 : ℚ) = "2.00" := by
  have h : ((2 : ℚ) * 100) = ((200 : ℤ) : ℚ) := by norm_num
  unfold formatHours
  rw [h, roundHalfEven_intCast]
  rfl

set_option maxRecDepth 10000 in
/-- C3 counterexample: for an input containing an active entry (`end =
None`), two runs of `generate_report` + `format_as_markdown` at different
clock instants (here one hour apart) produce different strings — the
active timer's duration is re-evaluated against each run's own "now", so
re-rendering is not byte-for-byte identical for active entries. -/
theorem markdown_rerun_active_cex :
    formatAsMarkdown (generateReport [cActive] cDate cDateEnd none 3600)
      ≠ formatAsMarkdown (generateReport [cActive] cDate cDateEnd none 7200) := by
  have e1 : formatAsMarkdown (generateReport [cActive] cDate cDateEnd none 3600)
      = "# Time Report - January 12 - January 18, 2026\n\n## Daily Reports\n\n### Monday (2026-01-12)\n\n| Tag | Hours | Annotations |\n| :--- | :--- | :--- |\n| work | 1.00 | Work on work related tasks |\n\n**Daily Total: 1.00 hours**\n\n## Weekly Summary\n\n| Tag | Total Hours | Daily Breakdown |\n| :--- | :--- | :--- |\n| work | 1.00 | Mon: 1.00 |\n\n**Total Hours: 1.00 hours**" := by
    have hr : generateReport [cActive] cDate cDateEnd none 3600
        = { week_start := cDate,
            daily_reports := [(cDate, ⟨cDate,
              [("work", ⟨"work", 1, [cActive], []⟩)], 1⟩)],
            weekly_summaries := [("work", ⟨"work", 1, [cActive], []⟩)],
            total_hours := 1,
            end_date := some cDateEnd,
            tags := none } := by
      simp [generateReport, dailyData, weeklyData, addEntryDaily,
        addEntryTag, attrDate, getPrimaryTag, mkDailyReport, mkTagSummary,
        sumDur, getDurationHours, entryAnnots, cActive]
    rw [hr]
    simp [formatAsMarkdown, mdLines, mdDayLines, dailyBreakdown,
      getSortedDailyReports, getSortedWeeklySummaries, sortTSDesc, insertTS,
      sortDatesAsc, insertDateAsc, lookupKey, getWeekRangeString,
      getFormattedAnnots, dedupBy, formatHours_one, cDate, cDateEnd, cActive,
      fmtMonthDay, fmtMonthDayYear, monthName, pad2, pad4, dayName,
      dayAbbrev, dayOfWeek, sakamotoT, getFormattedDate]
    rfl
  have e2 : formatAsMarkdown (generateReport [cActive] cDate cDateEnd none 7200)
      = "# Time Report - January 12 - January 18, 2026\n\n## Daily Reports\n\n### Monday (2026-01-12)\n\n| Tag | Hours | Annotations |\n| :--- | :--- | :--- |\n| work | 2.00 | Work on work related tasks |\n\n**Daily Total: 2.00 hours**\n\n## Weekly Summary\n\n| Tag | Total Hours | Daily Breakdown |\n| :--- | :--- | :--- |\n| work | 2.00 | Mon: 2.00 |\n\n**Total Hours: 2.00 hours**" := by
    have hr : generateReport [cActive] cDate cDateEnd none 7200
        = { week_start := cDate,
            daily_reports := [(cDate, ⟨cDate,
              [("work", ⟨"work", 2, [cActive], []⟩)], 2⟩)],
            weekly_summaries := [("work", ⟨"work", 2, [cActive], []⟩)],
            total_hours := 2,
            end_date := some cDateEnd,
            tags := none } := by
      simp [generateReport, dailyData, weeklyData, addEntryDaily,
        addEntryTag, attrDate, getPrimaryTag, mkDailyReport, mkTagSummary,
        sumDur, getDurationHours, entryAnnots, cActive]
      norm_num
    rw [hr]
    simp [formatAsMarkdown, mdLines, mdDayLines, dailyBreakdown,
      getSortedDailyReports, getSortedWeeklySummaries, sortTSDesc, insertTS,
      sortDatesAsc, insertDateAsc, lookupKey, getWeekRangeString,
      getFormattedAnnots, dedupBy, formatHours_two, cDate, cDateEnd, cActive,
      fmtMonthDay, fmtMonthDayYear, monthName, pad2, pad4, dayName,
      dayAbbrev, dayOfWeek, sakamotoT, getFormattedDate]
    rfl
  rw [e1, e2]
  decide

/-! ## Day buckets are never empty (claim C10) -/

theorem addEntryTag_ne_nil (g : List (String × List TimeEntry)) (t : String)
    (e : TimeEntry) : addEntryTag g t e ≠ [] := by
  cases g with
  | nil => simp [addEntryTag]
  | cons hd tl =>
    obtain ⟨t', es⟩ := hd
    unfold addEntryTag
    split <;> simp

theorem addEntryDaily_groups_ne_nil
    (m : List (Date × List (String × List TimeEntry)))
    (d : Date) (t : String) (e : TimeEntry)
    (hm : ∀ p ∈ m, p.2 ≠ []) :
    ∀ p ∈ addEntryDaily m d t e, p.2 ≠ [] := by
  induction m with
  | nil =>
    intro p hp
    simp only [addEntryDaily, List.mem_singleton] at hp
    subst hp
    simp
  | cons hd tl ih =>
    obtain ⟨d', g⟩ := hd
    intro p hp
    by_cases h : d = d'
    · rw [addEntryDaily, if_pos h] at hp
      rcases List.mem_cons.mp hp with rfl | hp'
      · exact addEntryTag_ne_nil g t e
      · exact hm p (List.mem_cons_of_mem _ hp')
    · rw [addEntryDaily, if_neg h] at hp
      rcases List.mem_cons.mp hp with rfl | hp'
      · exact hm _ (List.mem_cons_self _ _)
      · exact ih (fun q hq => hm q (List.mem_cons_of_mem _ hq)) p hp'

theorem dailyData_groups_ne_nil (sd : Date) (entries : List TimeEntry) :
    ∀ p ∈ dailyData sd entries, p.2 ≠ [] := by
  rw [dailyData]
  suffices h : ∀ m, (∀ p ∈ m, p.2 ≠ []) →
      ∀ p ∈ entries.foldl
        (fun m e => addEntryDaily m (attrDate sd e) (getPrimaryTag e) e) m,
      p.2 ≠ [] by
    exact h [] (by simp)
  induction entries with
  | nil => intro m hm; exact hm
  | cons e rest ih =>
    intro m hm
    exact ih _ (addEntryDaily_groups_ne_nil m _ _ e hm)

theorem getSortedDailyReports_perm (r : WeeklyReport)
    (hnd : (r.daily_reports.map Prod.fst).Nodup) :
    List.Perm (getSortedDailyReports r) (r.daily_reports.map Prod.snd) := by
  unfold getSortedDailyReports
  have hperm := (sortDatesAsc_perm (r.daily_reports.map Prod.fst)).map
    fun d => (lookupKey r.daily_reports d).getD ⟨d, [], 0⟩
  rw [map_keys_lookup r.daily_reports (fun d => ⟨d, [], 0⟩) hnd] at hperm
  exact hperm

/-! ## String discrimination helpers for the rendered lines -/

theorem getElem1_append (s t : String) (c : Char)
    (h : s.data[1]? = some c) : ((s ++ t).data)[1]? = some c := by
  rw [String.data_append]
  rcases hs : s.data with _ | ⟨a, _ | ⟨b, rest⟩⟩
  · rw [hs] at h; cases h
  · rw [hs] at h; cases h
  · rw [hs] at h
    simpa using h

theorem ne_of_getElem1 (a b : String) (c1 c2 : Char)
    (h1 : a.data[1]? = some c1) (h2 : b.data[1]? = some c2)
    (hne : c1 ≠ c2) : a ≠ b := by
  intro h
  rw [h] at h1
  rw [h1] at h2
  exact hne (Option.some.inj h2)

theorem mdDayLines_no_notracked (dr : DailyReport)
    (h : dr.tag_summaries ≠ []) :
    "*No time tracked*" ∉ mdDayLines dr := by
  intro hmem
  rw [mdDayLines, if_neg h] at hmem
  simp only [List.cons_append, List.nil_append, List.mem_cons,
    List.mem_append, List.mem_map, List.not_mem_nil, or_false] at hmem
  rcases hmem with heq | heq | heq | heq | ⟨ts, _, heq⟩ | heq | heq | heq
  · refine absurd heq.symm (ne_of_getElem1 _ _ '#' 'N' ?_ (by decide)
      (by decide))
    repeat apply getElem1_append
    decide
  · exact absurd heq (by decide)
  · exact absurd heq (by decide)
  · exact absurd heq (by decide)
  · refine absurd heq (ne_of_getElem1 _ _ ' ' 'N' ?_ (by decide)
      (by decide))
    repeat apply getElem1_append
    decide
  · exact absurd heq (by decide)
  · refine absurd heq.symm (ne_of_getElem1 _ _ '*' 'N' ?_ (by decide)
      (by decide))
    repeat apply getElem1_append
    decide
  · exact absurd heq (by decide)

theorem mdLines_no_notracked (r : WeeklyReport)
    (hdr : ∀ dr ∈ getSortedDailyReports r, dr.tag_summaries ≠ []) :
    "*No time tracked*" ∉ mdLines r := by
  intro hmem
  rw [mdLines] at hmem
  simp only [List.mem_append] at hmem
  rcases hmem with ((((h | h) | h) | h) | h) | h
  · rcases List.mem_cons.mp h with heq | h2
    · refine absurd heq.symm (ne_of_getElem1 _ _ ' ' 'N' ?_ (by decide)
        (by decide))
      repeat apply getElem1_append
      decide
    · exact absurd h2 (by decide)
  · rcases htg : r.tags with _ | ts
    · rw [htg] at h
      simp at h
    · rw [htg] at h
      by_cases hts : ts = []
      · simp [hts] at h
      · simp only [ne_eq, hts, not_false_eq_true, if_true] at h
        rcases List.mem_cons.mp h with heq | h2
        · refine absurd heq.symm (ne_of_getElem1 _ _ ' ' 'N' ?_ (by decide)
            (by decide))
          repeat apply getElem1_append
          decide
        · exact absurd h2 (by decide)
  · exact absurd h (by decide)
  · obtain ⟨dr, hdr2, hline⟩ := List.mem_flatMap.mp h
    exact mdDayLines_no_notracked dr (hdr dr hdr2) hline
  · exact absurd h (by decide)
  · by_cases hw : r.weekly_summaries = []
    · rw [if_pos hw] at h
      exact absurd h (by decide)
    · rw [if_neg hw] at h
      simp only [List.cons_append, List.nil_append, List.mem_cons,
        List.mem_append, List.mem_map, List.not_mem_nil, or_false] at h
      rcases h with heq | heq | ⟨ts, _, heq⟩ | heq | heq
      · exact absurd heq (by decide)
      · exact absurd heq (by decide)
      · refine absurd heq (ne_of_getElem1 _ _ ' ' 'N' ?_ (by decide)
          (by decide))
        repeat apply getElem1_append
        decide
      · exact absurd heq (by decide)
      · refine absurd heq.symm (ne_of_getElem1 _ _ '*' 'N' ?_ (by decide)
          (by decide))
        repeat apply getElem1_append
        decide

/-- A hand-constructed Report with a day that has no tag buckets: the only
way to reach the day-level "*No time tracked*" Markdown branch. -/
def rEmptyDay : WeeklyReport :=
  ⟨cDate, [(cDate, ⟨cDate, [], 0⟩)], [], 0, some cDateEnd, none⟩

/-- C10: every DailyReport built by `generate_report` has a non-empty
`tag_summaries` map (a daily report is created only for a date that
received at least one entry), so for engine-produced Reports the Markdown
renderer never emits the day-level `*No time tracked*` line; the line is
reachable only for hand-constructed Reports with an empty-tag day, as the
`rEmptyDay` witness shows. -/
theorem daily_reports_never_empty (entries : List TimeEntry) (sd ed : Date)
    (tg : Option (List String)) (now : Int) :
    (∀ p ∈ (generateReport entries sd ed tg now).daily_reports,
        p.2.tag_summaries ≠ [])
    ∧ "*No time tracked*" ∉ mdLines (generateReport entries sd ed tg now)
    ∧ ∃ rr : WeeklyReport, "*No time tracked*" ∈ mdLines rr := by
  have hne : ∀ p ∈ (generateReport entries sd ed tg now).daily_reports,
      p.2.tag_summaries ≠ [] := by
    intro p hp
    obtain ⟨q, hq, heq⟩ := List.mem_map.mp hp
    subst heq
    have hq2 := dailyData_groups_ne_nil sd entries q hq
    simpa [mkDailyReport] using hq2
  refine ⟨hne, ?_, ?_⟩
  · apply mdLines_no_notracked
    intro dr hdr
    have hndk : ((generateReport entries sd ed tg now).daily_reports.map
        Prod.fst).Nodup := by
      show (((dailyData sd entries).map
        fun p => (p.1, mkDailyReport now p.1 p.2)).map Prod.fst).Nodup
      rw [List.map_map]
      exact dailyData_keys_nodup sd entries
    have hdrv := (getSortedDailyReports_perm _ hndk).mem_iff.mp hdr
    obtain ⟨p, hp, heq⟩ := List.mem_map.mp hdrv
    exact heq ▸ hne p hp
  · exact ⟨rEmptyDay, by decide⟩

theorem length_flatMap_sum {α β : Type} (l : List α) (g : α → List β) :
    (l.flatMap g).length = (l.map fun x => (g x).length).sum := by
  induction l with
  | nil => rfl
  | cons x xs ih => simp [List.flatMap_cons, ih]

/-- C7: `format_as_csv` emits the header `Date,Day,Tag,Hours,Annotations`
followed by exactly one data row per (day, tag) pair of the Report (their
count equals the total number of pairs); each row carries the day's
formatted date and day name, the tag, `Hours` as the 2-decimal
`formatHours`, and the semicolon-joined formatted annotations; rows are
grouped by day in ascending date order with tags in descending-hours order
inside a day; a Report with empty maps yields the header row alone.  (The
`Nodup` hypothesis models the uniqueness of Python dict keys.) -/
theorem csv_structure (r : WeeklyReport)
    (hnd : (r.daily_reports.map Prod.fst).Nodup) :
    formatAsCsv r
      = "Date,Day,Tag,Hours,Annotations\r\n" ++ String.join (csvDataRows r)
    ∧ (r.daily_reports = [] →
        formatAsCsv r = "Date,Day,Tag,Hours,Annotations\r\n")
    ∧ (csvDataRows r).length
        = (r.daily_reports.map fun p => p.2.tag_summaries.length).sum
    ∧ (∀ row ∈ csvDataRows r, ∃ dr ts,
        dr ∈ r.daily_reports.map Prod.snd
        ∧ ts ∈ dr.tag_summaries.map Prod.snd
        ∧ row = csvRow [getFormattedDate dr.date, dayName dr.date, ts.tag,
            formatHours ts.total_hours,
            String.intercalate "; " (getFormattedAnnots ts)])
    ∧ List.Perm (sortDatesAsc (r.daily_reports.map Prod.fst))
        (r.daily_reports.map Prod.fst)
    ∧ (sortDatesAsc (r.daily_reports.map Prod.fst)).Pairwise dateLe
    ∧ ∀ dr ∈ getSortedDailyReports r,
        ((sortTSDesc (dr.tag_summaries.map Prod.snd)).Pairwise
          fun a b => b.total_hours ≤ a.total_hours)
        ∧ List.Perm (sortTSDesc (dr.tag_summaries.map Prod.snd))
            (dr.tag_summaries.map Prod.snd) := by
  refine ⟨rfl, ?_, ?_, ?_, sortDatesAsc_perm _, sortDatesAsc_pairwise _,
    fun dr _ => ⟨sortTSDesc_pairwise _, sortTSDesc_perm _⟩⟩
  · intro h
    show csvRow ["Date", "Day", "Tag", "Hours", "Annotations"]
        ++ String.join (csvDataRows r) = _
    rw [show csvDataRows r = [] by
      simp [csvDataRows, getSortedDailyReports, h, sortDatesAsc]]
    decide
  · rw [csvDataRows, length_flatMap_sum]
    have h1 : ((getSortedDailyReports r).map fun dr =>
          ((sortTSDesc (dr.tag_summaries.map Prod.snd)).map fun ts =>
            csvRow [getFormattedDate dr.date, dayName dr.date, ts.tag,
              formatHours ts.total_hours,
              String.intercalate "; " (getFormattedAnnots ts)]).length)
        = (getSortedDailyReports r).map
            fun dr => dr.tag_summaries.length := by
      apply List.map_congr_left
      intro dr _
      rw [List.length_map, (sortTSDesc_perm _).length_eq, List.length_map]
    rw [h1]
    have h2 := (getSortedDailyReports_perm r hnd).map
      fun dr => dr.tag_summaries.length
    rw [h2.sum_eq, List.map_map]
    rfl
  · intro row hrow
    obtain ⟨dr, hdr, hline⟩ := List.mem_flatMap.mp hrow
    obtain ⟨ts, hts, heq⟩ := List.mem_map.mp hline
    refine ⟨dr, ts, ?_, ?_, heq.symm⟩
    · exact (getSortedDailyReports_perm r hnd).mem_iff.mp hdr
    · exact (sortTSDesc_perm _).mem_iff.mp hts

theorem csv_structure_witness :
    formatAsCsv rEmptyDay
      = "Date,Day,Tag,Hours,Annotations\r\n"
        ++ String.join (csvDataRows rEmptyDay) :=
  (csv_structure rEmptyDay (by decide)).1

/-- The rendering claim C8 literally asserts for `range_label`: the start
as "Month Day", and the end extended to "Month Day, Year" only when the
years differ — i.e. an end without the year when the years agree. -/
def claimRangeString (start ed : Date) : String :=
  fmtMonthDay start ++ " - " ++
    (if start.year = ed.year then fmtMonthDay ed else fmtMonthDayYear ed)

/-- A same-year range (October 1-7, 2026) with an explicit end date. -/
def rSameYear : WeeklyReport :=
  ⟨⟨2026, 10, 1⟩, [], [], 0, some ⟨2026, 10, 7⟩, none⟩

/-- C8 counterexample: for the same-year range October 1-7, 2026 the code
renders "October 01 - October 07, 2026" — the end carries "Month Day,
Year" even though the years agree, so the claim's "only when the years
differ is the end extended to Month Day, Year" is false on the code. -/
theorem range_label_cex :
    getWeekRangeString rSameYear = "October 01 - October 07, 2026"
    ∧ getWeekRangeString rSameYear
        ≠ claimRangeString ⟨2026, 10, 1⟩ ⟨2026, 10, 7⟩ := by
  constructor <;> decide

/-- C8 (amended): with an `end_date` present the end is always rendered as
"Month Day, Year"; it is the start that varies: "Month Day" when start and
end share the year — so the year is written once, at the end, serving both
— and "Month Day, Year" when the years differ. -/
theorem range_label_shape (r : WeeklyReport) (ed : Date)
    (h : r.end_date = some ed) :
    getWeekRangeString r
      = (if r.week_start.year = ed.year then fmtMonthDay r.week_start
         else fmtMonthDayYear r.week_start)
        ++ " - " ++ fmtMonthDayYear ed := by
  unfold getWeekRangeString
  rw [h]
  show (if r.week_start.year = ed.year then
      fmtMonthDay r.week_start ++ " - " ++ fmtMonthDayYear ed
    else fmtMonthDayYear r.week_start ++ " - " ++ fmtMonthDayYear ed) = _
  split_ifs with hy <;> rfl

theorem range_label_shape_witness :
    getWeekRangeString rSameYear
      = (if rSameYear.week_start.year = (⟨2026, 10, 7⟩ : Date).year
         then fmtMonthDay rSameYear.week_start
         else fmtMonthDayYear rSameYear.week_start)
        ++ " - " ++ fmtMonthDayYear ⟨2026, 10, 7⟩ :=
  range_label_shape rSameYear ⟨2026, 10, 7⟩ rfl
